import Mathlib

/-!
Shallow embedding of `compute_probability_evolution` (and its inner
`build_hamiltonian`) from `pathways.py`, together with theorems checking the
natural-language specification of the forward-backward reconciliation engine
against this code.

The Python code works with complex `numpy` arrays; we model machine floats by
real/complex numbers and `scipy.linalg.expm` by the mathematical matrix
exponential `NormedSpace.exp ℂ`.  The random phase vector drawn by
`np.random.random(N)` (one sample per evaluation, each component in `[0,1)`)
is made an explicit parameter `theta` of the embedding, so a "run" of the
function is its value at one concrete draw.
-/

open scoped BigOperators Matrix ComplexConjugate

noncomputable section

namespace Pathways

/-- Time step hard-coded in `compute_probability_evolution`: `dt = 0.4`. -/
def dt : ℝ := 0.4

/-- Default coupling used by `build_hamiltonian(N, g=0.15)`. -/
def gDefault : ℝ := 0.15

/-- One numpy-style assignment `H[a, b] = v` on an `N×N` complex matrix. -/
def setEntry {N : ℕ} (H : Matrix (Fin N) (Fin N) ℂ) (a b : ℕ) (v : ℂ) :
    Matrix (Fin N) (Fin N) ℂ :=
  Matrix.of fun i j => if i.val = a ∧ j.val = b then v else H i j

/-- `build_hamiltonian`: starts from `np.zeros((N, N))` and, for each
`i in range(N-1)`, performs `H[i, i+1] = g` and `H[i+1, i] = g`. -/
def build_hamiltonian (N : ℕ) (g : ℝ) : Matrix (Fin N) (Fin N) ℂ :=
  (List.range (N - 1)).foldl
    (fun H i => setEntry (setEntry H i (i + 1) (g : ℂ)) (i + 1) i (g : ℂ)) 0

/-- The Hamiltonian actually used: `H = build_hamiltonian(N)` (default `g`). -/
def Hmat (N : ℕ) : Matrix (Fin N) (Fin N) ℂ := build_hamiltonian N gDefault

/-- Forward evolution operator `U = expm(-1j * H * dt)`. -/
def Ufwd (N : ℕ) : Matrix (Fin N) (Fin N) ℂ :=
  NormedSpace.exp ℂ ((-(Complex.I * (dt : ℂ))) • Hmat N)

/-- Backward evolution operator `U = expm(1j * H * dt)`. -/
def Ubwd (N : ℕ) : Matrix (Fin N) (Fin N) ℂ :=
  NormedSpace.exp ℂ ((Complex.I * (dt : ℂ)) • Hmat N)

/-- Initial forward state: `state = np.zeros(N); state[N // 2] = 1.0`. -/
def initState (N : ℕ) : Fin N → ℂ :=
  fun k => if k.val = N / 2 then 1 else 0

/-- Forward states: the loop `state = U @ state` applied `t` times. -/
def forwardState (N : ℕ) : ℕ → (Fin N → ℂ)
  | 0 => initState N
  | t + 1 => (Ufwd N).mulVec (forwardState N t)

/-- Row `t` of `forward_probs`: `np.abs(state) ** 2` after `t` steps. -/
def forwardProb (N : ℕ) (t : ℕ) (k : Fin N) : ℝ :=
  Complex.abs (forwardState N t k) ^ 2

/-- Backward boundary state:
`state_vec = np.sqrt(forward_probs[-1]) * np.exp(1j * np.random.random(N))`,
with the random draw `theta` (componentwise in `[0,1)`) passed explicitly. -/
def backwardInit (N T : ℕ) (theta : Fin N → ℝ) : Fin N → ℂ :=
  fun k => (Real.sqrt (forwardProb N T k) : ℂ) *
    Complex.exp (Complex.I * (theta k : ℝ))

/-- Backward states: the loop `state_vec = U @ state_vec` with
`U = expm(1j * H * dt)`, applied `t` times to the boundary state. -/
def backwardState (N T : ℕ) (theta : Fin N → ℝ) : ℕ → (Fin N → ℂ)
  | 0 => backwardInit N T theta
  | t + 1 => (Ubwd N).mulVec (backwardState N T theta t)

/-- Row `t` of `backward_probs` (propagation order: row 0 is the boundary). -/
def backwardProb (N T : ℕ) (theta : Fin N → ℝ) (t : ℕ) (k : Fin N) : ℝ :=
  Complex.abs (backwardState N T theta t k) ^ 2

/-- The returned array `forward_probs` (list of `timesteps + 1` rows). -/
def forwardProbsList (N T : ℕ) : List (Fin N → ℝ) :=
  (List.range (T + 1)).map (forwardProb N)

/-- The returned array `backward_probs` (list of `timesteps + 1` rows). -/
def backwardProbsList (N T : ℕ) (theta : Fin N → ℝ) : List (Fin N → ℝ) :=
  (List.range (T + 1)).map (backwardProb N T theta)

/-- `compute_probability_evolution(N, timesteps)`: for `N = 0` the assignment
`state[N // 2] = 1.0` raises an `IndexError` on the empty array (modelled as
`none`); otherwise both probability arrays are returned.  The function takes
no `dt`, `V0`, `noiseAmplitude` or `phasePrecision` argument and performs no
validation of its inputs. -/
def compute_probability_evolution (N timesteps : ℕ) (theta : Fin N → ℝ) :
    Option (List (Fin N → ℝ) × List (Fin N → ℝ)) :=
  if N = 0 then none
  else some (forwardProbsList N timesteps, backwardProbsList N timesteps theta)

/-- Squared L2 norm of a complex vector. -/
def l2sq {N : ℕ} (v : Fin N → ℂ) : ℝ := ∑ k, Complex.normSq (v k)

/-- Modelled from the spec: the `PhaseRealignment` heuristic is absent from
`src/` (the spec describes it as "multiply component `k` by
`exp(i·2π·k/phasePrecision)`", then "renormalize to unit L2 norm").  It is
written here only to compare the backward step of the spec against that of the code. -/
def specPhaseRealign {N : ℕ} (P : ℕ) (v : Fin N → ℂ) : Fin N → ℂ :=
  fun k => (v k * Complex.exp (Complex.I * ((2 * Real.pi * k.val / P : ℝ) : ℂ))) /
    ((Real.sqrt (l2sq fun j : Fin N =>
      v j * Complex.exp (Complex.I * ((2 * Real.pi * j.val / P : ℝ) : ℂ))) : ℝ) : ℂ)

/-- Modelled from the spec: the total-error accumulator (`evaluate`) is absent
from `src/`; the spec defines it as "Σ over t in [0,T] of Σ over basis index
of (P_forward[t] − P_backward[t])²".  The backward row of the spec at time `t`
is row `T - t` of the `backward_probs` of the code (propagation order). -/
def totalError (N T : ℕ) (theta : Fin N → ℝ) : ℝ :=
  ∑ t ∈ Finset.range (T + 1), ∑ k,
    (forwardProb N t k - backwardProb N T theta (T - t) k) ^ 2

/-- Phase draw used for run A of the counterexamples: all phases zero. -/
def thetaA : Fin 2 → ℝ := fun _ => 0

/-- Phase draw used for run B: phases `(0, 1/2)`, both valid values of
`np.random.random` (each lies in `[0, 1)`). -/
def thetaB : Fin 2 → ℝ := ![0, 1/2]

/-- Phase draw `(1/2)` on one site, a valid value of `np.random.random`. -/
def thetaHalf : Fin 1 → ℝ := fun _ => 1/2

/-- Product of the hard-coded constants, `dt * g = 0.06`. -/
def alphaAngle : ℝ := dt * gDefault

/-- Eigenvector matrix used to diagonalize the 2×2 Hamiltonian. -/
def P2 : Matrix (Fin 2) (Fin 2) ℂ := Matrix.of ![![1, 1], ![1, -1]]

/-- Inverse of `P2`. -/
def P2inv : Matrix (Fin 2) (Fin 2) ℂ := (2⁻¹ : ℂ) • P2

lemma range_foldl_apply (N : ℕ) (g : ℝ) (m : ℕ) (i j : Fin N) :
    ((List.range m).foldl
      (fun H a => setEntry (setEntry H a (a + 1) (g : ℂ)) (a + 1) a (g : ℂ)) 0) i j =
    if (i.val + 1 = j.val ∧ i.val < m) ∨ (j.val + 1 = i.val ∧ j.val < m)
      then (g : ℂ) else 0 := by
  induction m with
  | zero => simp
  | succ m ih =>
      rw [List.range_succ, List.foldl_append, List.foldl_cons, List.foldl_nil]
      simp only [setEntry, Matrix.of_apply] at ih ⊢
      rw [ih]
      split_ifs <;> first | rfl | omega

/-- Closed form for the matrix built by `build_hamiltonian`. -/
lemma build_hamiltonian_apply (N : ℕ) (g : ℝ) (i j : Fin N) :
    build_hamiltonian N g i j =
      if i.val + 1 = j.val ∨ j.val + 1 = i.val then (g : ℂ) else 0 := by
  have hi := i.isLt
  have hj := j.isLt
  rw [build_hamiltonian, range_foldl_apply]
  split_ifs <;> first | rfl | omega

/-- The built Hamiltonian is Hermitian (real symmetric). -/
lemma Hmat_conjTranspose (N : ℕ) : (Hmat N)ᴴ = Hmat N := by
  ext i j
  rw [Matrix.conjTranspose_apply, Hmat, build_hamiltonian_apply, build_hamiltonian_apply]
  by_cases h : i.val + 1 = j.val ∨ j.val + 1 = i.val
  · rw [if_pos h, if_pos (Or.symm h), Complex.star_def, Complex.conj_ofReal]
  · rw [if_neg h, if_neg fun hc => h (Or.symm hc), star_zero]

/-- `expm(-iHdt) * expm(iHdt) = 1`: the two exponentials are mutual inverses. -/
lemma Ufwd_mul_Ubwd (N : ℕ) : Ufwd N * Ubwd N = 1 := by
  have hc : Commute ((-(Complex.I * (dt : ℂ))) • Hmat N)
      ((Complex.I * (dt : ℂ)) • Hmat N) := by
    rw [neg_smul]
    exact (Commute.refl _).neg_left
  rw [Ufwd, Ubwd, ← Matrix.exp_add_of_commute ℂ _ _ hc, ← add_smul,
    neg_add_cancel, zero_smul, NormedSpace.exp_zero]

/-- `expm(iHdt) * expm(-iHdt) = 1`. -/
lemma Ubwd_mul_Ufwd (N : ℕ) : Ubwd N * Ufwd N = 1 := by
  have hc : Commute ((Complex.I * (dt : ℂ)) • Hmat N)
      ((-(Complex.I * (dt : ℂ))) • Hmat N) := by
    rw [neg_smul]
    exact (Commute.refl _).neg_right
  rw [Ufwd, Ubwd, ← Matrix.exp_add_of_commute ℂ _ _ hc, ← add_smul,
    add_neg_cancel, zero_smul, NormedSpace.exp_zero]

/-- Adjoint of the forward operator is the backward operator (H Hermitian). -/
lemma Ufwd_conjTranspose (N : ℕ) : (Ufwd N)ᴴ = Ubwd N := by
  rw [Ufwd, Ubwd, ← Matrix.exp_conjTranspose, Matrix.conjTranspose_smul,
    Hmat_conjTranspose]
  congr 1
  simp only [star_neg, star_mul', Complex.star_def, Complex.conj_I,
    Complex.conj_ofReal]
  ring_nf

/-- Adjoint of the backward operator is the forward operator. -/
lemma Ubwd_conjTranspose (N : ℕ) : (Ubwd N)ᴴ = Ufwd N := by
  rw [Ufwd, Ubwd, ← Matrix.exp_conjTranspose, Matrix.conjTranspose_smul,
    Hmat_conjTranspose]
  congr 1
  simp only [star_mul', Complex.star_def, Complex.conj_I, Complex.conj_ofReal]
  ring_nf

/-- The squared L2 norm as a complex dot product. -/
lemma l2sq_eq_dot {N : ℕ} (v : Fin N → ℂ) : (l2sq v : ℂ) = star v ⬝ᵥ v := by
  rw [l2sq, Matrix.dotProduct]
  push_cast
  exact Finset.sum_congr rfl fun k _ => Complex.normSq_eq_conj_mul_self

/-- A matrix with `Mᴴ * M = 1` preserves the squared L2 norm. -/
lemma l2sq_mulVec {N : ℕ} {M : Matrix (Fin N) (Fin N) ℂ} (hM : Mᴴ * M = 1)
    (v : Fin N → ℂ) : l2sq (M.mulVec v) = l2sq v := by
  have h : (l2sq (M.mulVec v) : ℂ) = (l2sq v : ℂ) := by
    rw [l2sq_eq_dot, l2sq_eq_dot, Matrix.star_mulVec, Matrix.dotProduct_mulVec,
      Matrix.vecMul_vecMul, hM, Matrix.vecMul_one]
  exact_mod_cast h

/-- Unit-modulus of the random phase factors `exp(1j * r)`, `r` real. -/
lemma normSq_exp_I_mul (x : ℝ) :
    Complex.normSq (Complex.exp (Complex.I * x)) = 1 := by
  rw [← Complex.sq_abs, mul_comm, Complex.abs_exp_ofReal_mul_I, one_pow]

/-- `np.abs(z) ** 2` is `normSq`. -/
lemma forwardProb_eq_normSq (N t : ℕ) (k : Fin N) :
    forwardProb N t k = Complex.normSq (forwardState N t k) := by
  rw [forwardProb, Complex.sq_abs]

lemma forwardProb_nonneg (N t : ℕ) (k : Fin N) : 0 ≤ forwardProb N t k :=
  sq_nonneg _

/-- Squared magnitude of each backward boundary component equals the
corresponding final forward probability (the random phase has modulus 1). -/
lemma normSq_backwardInit (N T : ℕ) (theta : Fin N → ℝ) (k : Fin N) :
    Complex.normSq (backwardInit N T theta k) = forwardProb N T k := by
  rw [backwardInit, Complex.normSq_mul, normSq_exp_I_mul, mul_one,
    Complex.normSq_ofReal, Real.mul_self_sqrt (forwardProb_nonneg N T k)]

/-- Row 0 of `backward_probs` is the final row of `forward_probs`. -/
lemma backwardProb_zero_eq (N T : ℕ) (theta : Fin N → ℝ) (k : Fin N) :
    backwardProb N T theta 0 k = forwardProb N T k := by
  rw [backwardProb, Complex.sq_abs]
  exact normSq_backwardInit N T theta k

/-- The initial forward state is a unit vector (one nonzero entry). -/
lemma l2sq_initState (N : ℕ) (hN : 0 < N) : l2sq (initState N) = 1 := by
  have hmid : N / 2 < N := Nat.div_lt_self hN one_lt_two
  rw [l2sq]
  have h1 : ∀ k : Fin N, Complex.normSq (initState N k) =
      if k = ⟨N / 2, hmid⟩ then 1 else 0 := by
    intro k
    rw [initState]
    by_cases h : (k : ℕ) = N / 2
    · rw [if_pos h, if_pos (Fin.ext h), Complex.normSq_one]
    · rw [if_neg h, if_neg fun hc => h (by rw [hc]), Complex.normSq_zero]
  simp only [h1]
  rw [Finset.sum_ite_eq' Finset.univ (⟨N / 2, hmid⟩ : Fin N) fun _ => (1 : ℝ)]
  rw [if_pos (Finset.mem_univ _)]

/-- Every forward state is a unit vector. -/
lemma l2sq_forwardState (N : ℕ) (hN : 0 < N) (t : ℕ) :
    l2sq (forwardState N t) = 1 := by
  induction t with
  | zero => exact l2sq_initState N hN
  | succ t ih =>
      have hU : (Ufwd N)ᴴ * Ufwd N = 1 := by
        rw [Ufwd_conjTranspose]; exact Ubwd_mul_Ufwd N
      calc l2sq (forwardState N (t + 1))
          = l2sq ((Ufwd N).mulVec (forwardState N t)) := rfl
        _ = l2sq (forwardState N t) := l2sq_mulVec hU _
        _ = 1 := ih

/-- The backward boundary state is a unit vector. -/
lemma l2sq_backwardInit (N T : ℕ) (hN : 0 < N) (theta : Fin N → ℝ) :
    l2sq (backwardInit N T theta) = 1 := by
  calc l2sq (backwardInit N T theta)
      = ∑ k, Complex.normSq (backwardInit N T theta k) := rfl
    _ = ∑ k, Complex.normSq (forwardState N T k) := by
        refine Finset.sum_congr rfl fun k _ => ?_
        rw [normSq_backwardInit, forwardProb_eq_normSq]
    _ = l2sq (forwardState N T) := rfl
    _ = 1 := l2sq_forwardState N hN T

/-- Every backward state is a unit vector. -/
lemma l2sq_backwardState (N T : ℕ) (hN : 0 < N) (theta : Fin N → ℝ) (t : ℕ) :
    l2sq (backwardState N T theta t) = 1 := by
  induction t with
  | zero => exact l2sq_backwardInit N T hN theta
  | succ t ih =>
      have hU : (Ubwd N)ᴴ * Ubwd N = 1 := by
        rw [Ubwd_conjTranspose]; exact Ufwd_mul_Ubwd N
      calc l2sq (backwardState N T theta (t + 1))
          = l2sq ((Ubwd N).mulVec (backwardState N T theta t)) := rfl
        _ = l2sq (backwardState N T theta t) := l2sq_mulVec hU _
        _ = 1 := ih

lemma backwardProb_eq_normSq (N T t : ℕ) (theta : Fin N → ℝ) (k : Fin N) :
    backwardProb N T theta t k = Complex.normSq (backwardState N T theta t k) := by
  rw [backwardProb, Complex.sq_abs]

/-- Row 0 of `forward_probs` is the indicator of the midpoint `N / 2`. -/
lemma forwardProb_zero_row (N : ℕ) (k : Fin N) :
    forwardProb N 0 k = if k.val = N / 2 then 1 else 0 := by
  rw [forwardProb]
  show Complex.abs (initState N k) ^ 2 = _
  rw [initState]
  by_cases h : (k : ℕ) = N / 2
  · rw [if_pos h, if_pos h, map_one, one_pow]
  · rw [if_neg h, if_neg h, map_zero]
    exact zero_pow two_ne_zero

/-- C10: for every lattice size and number of timesteps, the first row of the
backward probability array equals the last row of the forward probability
array, element by element, for every drawn phase vector (each random phase
factor has unit modulus, so taking squared magnitudes cancels it). -/
theorem backward_head_eq_forward_last (N T : ℕ) (theta : Fin N → ℝ) (k : Fin N) :
    backwardProb N T theta 0 k = forwardProb N T k :=
  backwardProb_zero_eq N T theta k

/-- C1 (amended part): the first backward row does not depend on which random
phase vector was drawn, so it is identical across runs; the forward rows are
phase-independent by construction.  (Later backward rows do depend on the
draw: see the counterexample.) -/
theorem backward_first_row_phase_independent (N T : ℕ)
    (th1 th2 : Fin N → ℝ) (k : Fin N) :
    backwardProb N T th1 0 k = backwardProb N T th2 0 k := by
  rw [backwardProb_zero_eq, backwardProb_zero_eq]

/-- C2 (amended part): the backward boundary state has the claimed magnitudes:
componentwise, its absolute value is the square root of the final forward
probability (only the zero-phase part of the claim fails). -/
theorem backward_boundary_magnitudes (N T : ℕ) (theta : Fin N → ℝ) (k : Fin N) :
    Complex.abs (backwardInit N T theta k) = Real.sqrt (forwardProb N T k) := by
  have h := normSq_backwardInit N T theta k
  rw [← Complex.sq_abs] at h
  rw [← h, Real.sqrt_sq (AbsoluteValue.nonneg _ _)]

/-- C2 (counterexample): at `N = 1`, `timesteps = 0` and the valid phase draw
`(0.5)`, the backward boundary component has nonzero imaginary part, so it is
not the real non-negative square root with zero phase that the claim
describes. -/
theorem backward_boundary_not_real :
    (backwardInit 1 0 thetaHalf 0).im ≠ 0 := by
  have h1 : forwardProb 1 0 0 = 1 := by
    rw [forwardProb_zero_row]
    norm_num
  have h2 : backwardInit 1 0 thetaHalf 0 =
      Complex.exp (((1 : ℝ) / 2 : ℝ) * Complex.I) := by
    rw [backwardInit, h1, Real.sqrt_one, thetaHalf, mul_comm Complex.I]
    rw [Complex.ofReal_one, one_mul]
  rw [h2, Complex.exp_ofReal_mul_I_im]
  have : 0 < Real.sin (1 / 2) :=
    Real.sin_pos_of_pos_of_lt_pi (by norm_num)
      (lt_trans (by norm_num) Real.pi_gt_three)
  exact ne_of_gt this

/-- C4 (counterexample): at `N = 2` the initial forward distribution is not
uniform: its entry at index 0 is 0, not `1/N = 1/2` (the code starts from the
basis state at index `N // 2`, not from the uniform superposition). -/
theorem initial_distribution_not_uniform :
    forwardProb 2 0 (0 : Fin 2) ≠ 1 / 2 := by
  rw [forwardProb_zero_row]
  norm_num

/-- C4 (amended part): the forward trajectory starts from the basis state at
index `N // 2` (initial probability row is its indicator), and the forward
array has `T + 1` rows. -/
theorem initial_distribution_midpoint (N T : ℕ) (k : Fin N) :
    forwardProb N 0 k = (if k.val = N / 2 then 1 else 0) ∧
      (forwardProbsList N T).length = T + 1 :=
  ⟨forwardProb_zero_row N k, by
    rw [forwardProbsList, List.length_map, List.length_range]⟩

/-- C5 (counterexample): the claimed diagonal `V0·cos(2π·i/N)` fails at
`N = 1`, `i = 0` with on-site potential scale `V0 = 1`: the claimed entry is
`1·cos(0) = 1` but the built Hamiltonian has a zero diagonal (the code has no
on-site potential term at all). -/
theorem hamiltonian_diagonal_zero_cex :
    Hmat 1 (0 : Fin 1) (0 : Fin 1) ≠
      (((1 : ℝ) * Real.cos (2 * Real.pi * 0 / 1) : ℝ) : ℂ) := by
  rw [Hmat, build_hamiltonian_apply]
  norm_num

/-- C5 (amended part): for every `N ≥ 1` and coupling `g`, the built
Hamiltonian has entries `(i,i+1) = (i+1,i) = g` for `i ∈ [0, N-2]` and all
other entries — including the whole diagonal — zero. -/
theorem hamiltonian_tridiagonal (N : ℕ) (g : ℝ) (i j : Fin N) :
    build_hamiltonian N g i j =
      if i.val + 1 = j.val ∨ j.val + 1 = i.val then (g : ℂ) else 0 :=
  build_hamiltonian_apply N g i j

/-- C6: the spec-modelled total error (sum over times and basis indices of the
squared difference of forward and backward probabilities) is non-negative for
every configuration and phase draw, and is exactly 0 when `T = 0`. -/
theorem totalError_nonneg_and_zero_at_T0 (N T : ℕ) (theta : Fin N → ℝ) :
    0 ≤ totalError N T theta ∧ totalError N 0 theta = 0 := by
  constructor
  · exact Finset.sum_nonneg fun t _ => Finset.sum_nonneg fun k _ => sq_nonneg _
  · rw [totalError]
    rw [show (0 + 1 : ℕ) = 1 from rfl, Finset.sum_range_one]
    refine Finset.sum_eq_zero fun k _ => ?_
    rw [Nat.sub_zero, backwardProb_zero_eq, sub_self]
    exact zero_pow two_ne_zero

/-- C7: the forward operator is `expm(-iHdt)`, the inverse `expm(+iHdt)`, and
applying the forward then the inverse operator to any unit-norm state returns
exactly that state (`H` is Hermitian, so the two exponentials are mutual
inverses). -/
theorem unitarity_roundtrip (N : ℕ) (v : Fin N → ℂ) (hv : l2sq v = 1) :
    (Ubwd N).mulVec ((Ufwd N).mulVec v) = v := by
  rw [Matrix.mulVec_mulVec, Ubwd_mul_Ufwd, Matrix.one_mulVec]

/-- Witness for C7 at the concrete unit vector `(1)` in dimension 1. -/
theorem unitarity_roundtrip_witness :
    l2sq (fun _ : Fin 1 => (1 : ℂ)) = 1 ∧
      (Ubwd 1).mulVec ((Ufwd 1).mulVec fun _ => (1 : ℂ)) = fun _ => (1 : ℂ) :=
  ⟨by simp [l2sq], unitarity_roundtrip 1 _ (by simp [l2sq])⟩

/-- C8: every row of the returned forward and backward probability arrays
sums to 1 (equivalently, every state in both trajectories has unit L2 norm at
every stage boundary). -/
theorem unit_norm_rows (N T t : ℕ) (theta : Fin N → ℝ) (hN : 0 < N)
    (ht : t ≤ T) :
    (∑ k, forwardProb N t k) = 1 ∧ (∑ k, backwardProb N T theta t k) = 1 := by
  constructor
  · calc ∑ k, forwardProb N t k
        = ∑ k, Complex.normSq (forwardState N t k) :=
          Finset.sum_congr rfl fun k _ => forwardProb_eq_normSq N t k
      _ = 1 := l2sq_forwardState N hN t
  · calc ∑ k, backwardProb N T theta t k
        = ∑ k, Complex.normSq (backwardState N T theta t k) :=
          Finset.sum_congr rfl fun k _ => backwardProb_eq_normSq N T t theta k
      _ = 1 := l2sq_backwardState N T hN theta t

/-- Witness for C8 at `N = 1`, `T = t = 0` and a concrete phase draw. -/
theorem unit_norm_rows_witness :
    (0 : ℕ) < 1 ∧ (0 : ℕ) ≤ 0 ∧
      ((∑ k, forwardProb 1 0 k) = 1 ∧ (∑ k, backwardProb 1 0 thetaHalf 0 k) = 1) :=
  ⟨by decide, by decide, unit_norm_rows 1 0 0 thetaHalf (by decide) (by decide)⟩

/-- C9 (counterexample): with `N = 1` and the non-positive value
`timesteps = 0`, the evaluation does not fail with an invalid-configuration
error: it runs to completion and returns both probability arrays. -/
theorem no_invalid_configuration_rejection_cex :
    (compute_probability_evolution 1 0 thetaHalf).isSome = true := by
  rw [compute_probability_evolution]
  simp

/-- C9 (amended part): the code validates nothing: the evaluation succeeds
exactly when `N ≥ 1` (for any `timesteps ≥ 0`), and `N = 0` surfaces as an
index error during the work — after the Hamiltonian is built — rather than as
a fail-fast invalid-configuration rejection; `dt` and `phasePrecision` are
not even inputs. -/
theorem no_validation_isSome_iff (N T : ℕ) (theta : Fin N → ℝ) :
    (compute_probability_evolution N T theta).isSome = true ↔ 0 < N := by
  rw [compute_probability_evolution]
  by_cases h : N = 0
  · subst h
    simp
  · simp [h, Nat.pos_of_ne_zero h]

/-- C3 (amended part): in spec-time indexing (`backward[t]` is the raw
backward state after `T - t` applications of `expm(+iHdt)`), each backward
step applies the inverse evolution operator and nothing else: no phase
realignment, no renormalization, and no `phasePrecision` parameter exists. -/
theorem backward_step_pure_inverse (N T t : ℕ) (theta : Fin N → ℝ)
    (ht : t < T) :
    backwardState N T theta (T - t) =
      (Ubwd N).mulVec (backwardState N T theta (T - (t + 1))) := by
  have h : T - t = (T - (t + 1)) + 1 := by omega
  rw [h]
  rfl

/-- Witness for the amended C3 step relation at `N = 1`, `T = 1`, `t = 0`. -/
theorem backward_step_pure_inverse_witness :
    (0 : ℕ) < 1 ∧ backwardState 1 1 thetaHalf (1 - 0) =
      (Ubwd 1).mulVec (backwardState 1 1 thetaHalf (1 - (0 + 1))) :=
  ⟨by decide, backward_step_pure_inverse 1 1 0 thetaHalf (by decide)⟩

lemma P2_mul_P2inv : P2 * P2inv = 1 := by
  ext i j
  fin_cases i <;> fin_cases j <;>
    simp [P2, P2inv, Matrix.mul_apply, Fin.sum_univ_two, Matrix.one_apply] <;>
    norm_num

lemma P2inv_mul_P2 : P2inv * P2 = 1 := by
  ext i j
  fin_cases i <;> fin_cases j <;>
    simp [P2, P2inv, Matrix.mul_apply, Fin.sum_univ_two, Matrix.one_apply] <;>
    norm_num

/-- Diagonalization of the symmetric off-diagonal 2×2 matrix. -/
lemma offdiag_conj (w : ℂ) :
    Matrix.of ![![0, w], ![w, 0]] = P2 * Matrix.diagonal ![w, -w] * P2inv := by
  ext i j
  fin_cases i <;> fin_cases j <;>
    simp [P2, P2inv, Matrix.mul_apply, Fin.sum_univ_two, Matrix.diagonal_apply,
      Matrix.vecMul_diagonal, Matrix.vecHead, Matrix.vecTail] <;>
    ring

/-- Exponential of the symmetric off-diagonal 2×2 matrix, by eigendecomposition. -/
lemma exp_offdiag (w : ℂ) :
    NormedSpace.exp ℂ (Matrix.of ![![0, w], ![w, 0]]) =
      Matrix.of ![![(Complex.exp w + Complex.exp (-w)) / 2,
                    (Complex.exp w - Complex.exp (-w)) / 2],
                  ![(Complex.exp w - Complex.exp (-w)) / 2,
                    (Complex.exp w + Complex.exp (-w)) / 2]] := by
  have hPu : P2 * Matrix.diagonal ![w, -w] * P2inv =
      (⟨P2, P2inv, P2_mul_P2inv, P2inv_mul_P2⟩ : (Matrix (Fin 2) (Fin 2) ℂ)ˣ) *
        Matrix.diagonal ![w, -w] *
        ((⟨P2, P2inv, P2_mul_P2inv, P2inv_mul_P2⟩ : (Matrix (Fin 2) (Fin 2) ℂ)ˣ)⁻¹ :
          (Matrix (Fin 2) (Fin 2) ℂ)ˣ) := rfl
  rw [offdiag_conj, hPu,
    Matrix.exp_units_conj ℂ ⟨P2, P2inv, P2_mul_P2inv, P2inv_mul_P2⟩,
    Matrix.exp_diagonal]
  have h2 : NormedSpace.exp ℂ (![w, -w] : Fin 2 → ℂ) =
      ![Complex.exp w, Complex.exp (-w)] := by
    funext i
    fin_cases i <;> simp [← Complex.exp_eq_exp_ℂ]
  rw [h2]
  ext i j
  fin_cases i <;> fin_cases j <;>
    simp [P2, P2inv, Matrix.mul_apply, Fin.sum_univ_two, Matrix.diagonal_apply,
      Matrix.vecMul_diagonal, Matrix.vecHead, Matrix.vecTail] <;>
    ring

/-- Euler formula specialised to a real angle. -/
lemma exp_real_mul_I (x : ℝ) :
    Complex.exp ((x : ℂ) * Complex.I) =
      (Real.cos x : ℂ) + (Real.sin x : ℂ) * Complex.I := by
  rw [Complex.exp_mul_I, ← Complex.ofReal_cos, ← Complex.ofReal_sin]

/-- Any complex multiple of the 2×2 Hamiltonian is symmetric off-diagonal. -/
lemma smul_Hmat_two (c : ℂ) :
    c • Hmat 2 =
      Matrix.of ![![0, c * (gDefault : ℂ)], ![c * (gDefault : ℂ), 0]] := by
  ext i j
  rw [Matrix.smul_apply, Hmat, build_hamiltonian_apply]
  fin_cases i <;> fin_cases j <;>
    simp [Matrix.vecHead, Matrix.vecTail]

/-- Closed form of the forward operator at `N = 2`. -/
lemma Ufwd_two :
    Ufwd 2 = Matrix.of
      ![![(Real.cos alphaAngle : ℂ), -Complex.I * (Real.sin alphaAngle : ℂ)],
        ![-Complex.I * (Real.sin alphaAngle : ℂ), (Real.cos alphaAngle : ℂ)]] := by
  rw [Ufwd, smul_Hmat_two, exp_offdiag]
  have hw : -(Complex.I * (dt : ℂ)) * (gDefault : ℂ) =
      ((-alphaAngle : ℝ) : ℂ) * Complex.I := by
    push_cast [alphaAngle]
    ring
  rw [hw]
  have hnw : -(((-alphaAngle : ℝ) : ℂ) * Complex.I) =
      ((alphaAngle : ℝ) : ℂ) * Complex.I := by
    push_cast
    ring
  rw [hnw, exp_real_mul_I, exp_real_mul_I]
  ext i j
  fin_cases i <;> fin_cases j <;>
    simp [Matrix.vecHead, Matrix.vecTail, Real.cos_neg, Real.sin_neg] <;>
    push_cast <;> ring

/-- Closed form of the backward operator at `N = 2`. -/
lemma Ubwd_two :
    Ubwd 2 = Matrix.of
      ![![(Real.cos alphaAngle : ℂ), Complex.I * (Real.sin alphaAngle : ℂ)],
        ![Complex.I * (Real.sin alphaAngle : ℂ), (Real.cos alphaAngle : ℂ)]] := by
  rw [Ubwd, smul_Hmat_two, exp_offdiag]
  have hw : Complex.I * (dt : ℂ) * (gDefault : ℂ) =
      ((alphaAngle : ℝ) : ℂ) * Complex.I := by
    push_cast [alphaAngle]
    ring
  rw [hw]
  have hnw : -(((alphaAngle : ℝ) : ℂ) * Complex.I) =
      ((-alphaAngle : ℝ) : ℂ) * Complex.I := by
    push_cast
    ring
  rw [hnw, exp_real_mul_I, exp_real_mul_I]
  ext i j
  fin_cases i <;> fin_cases j <;>
    simp [Matrix.vecHead, Matrix.vecTail, Real.cos_neg, Real.sin_neg] <;>
    push_cast <;> ring

lemma alpha_pos : 0 < alphaAngle := by norm_num [alphaAngle, dt, gDefault]

lemma alpha_lt_one : alphaAngle < 1 := by norm_num [alphaAngle, dt, gDefault]

lemma sin_alpha_pos : 0 < Real.sin alphaAngle := by
  have h := Real.pi_gt_three
  have h2 := alpha_lt_one
  exact Real.sin_pos_of_pos_of_lt_pi alpha_pos (by linarith)

lemma cos_alpha_pos : 0 < Real.cos alphaAngle := by
  have h := Real.pi_gt_three
  have h1 := alpha_pos
  have h2 := alpha_lt_one
  exact Real.cos_pos_of_mem_Ioo ⟨by linarith, by linarith⟩

lemma sin_half_pos : 0 < Real.sin ((1 : ℝ) / 2) := by
  have h := Real.pi_gt_three
  exact Real.sin_pos_of_pos_of_lt_pi (by norm_num) (by linarith)

/-- Matrix-vector product over `Fin 2`, written out. -/
lemma mulVec_two (M : Matrix (Fin 2) (Fin 2) ℂ) (v : Fin 2 → ℂ) (i : Fin 2) :
    (M.mulVec v) i = M i 0 * v 0 + M i 1 * v 1 := by
  rw [Matrix.mulVec, Matrix.dotProduct]
  exact Fin.sum_univ_two _

lemma initState_two_zero : initState 2 0 = 0 := rfl

lemma initState_two_one : initState 2 1 = 1 := rfl

lemma Ufwd_two_apply (i j : Fin 2) :
    Ufwd 2 i j = if i = j then (Real.cos alphaAngle : ℂ)
      else -Complex.I * (Real.sin alphaAngle : ℂ) := by
  rw [Ufwd_two]
  fin_cases i <;> fin_cases j <;>
    simp only [Matrix.of_apply, Matrix.cons_val_zero, Matrix.cons_val_one,
      Matrix.head_cons, Fin.mk_zero, Fin.mk_one] <;> norm_num

lemma Ubwd_two_apply (i j : Fin 2) :
    Ubwd 2 i j = if i = j then (Real.cos alphaAngle : ℂ)
      else Complex.I * (Real.sin alphaAngle : ℂ) := by
  rw [Ubwd_two]
  fin_cases i <;> fin_cases j <;>
    simp only [Matrix.of_apply, Matrix.cons_val_zero, Matrix.cons_val_one,
      Matrix.head_cons, Fin.mk_zero, Fin.mk_one] <;> norm_num

/-- The forward state after one step at `N = 2`, entry 0. -/
lemma forwardState_two_one_zero :
    forwardState 2 1 0 = -Complex.I * (Real.sin alphaAngle : ℂ) := by
  have h : forwardState 2 1 0 = ((Ufwd 2).mulVec (initState 2)) 0 := rfl
  rw [h, mulVec_two, initState_two_zero, initState_two_one,
    Ufwd_two_apply, Ufwd_two_apply]
  norm_num

/-- The forward state after one step at `N = 2`, entry 1. -/
lemma forwardState_two_one_one :
    forwardState 2 1 1 = (Real.cos alphaAngle : ℂ) := by
  have h : forwardState 2 1 1 = ((Ufwd 2).mulVec (initState 2)) 1 := rfl
  rw [h, mulVec_two, initState_two_zero, initState_two_one,
    Ufwd_two_apply, Ufwd_two_apply]
  norm_num

lemma forwardProb_two_one_zero :
    forwardProb 2 1 0 = Real.sin alphaAngle ^ 2 := by
  rw [forwardProb_eq_normSq, forwardState_two_one_zero, Complex.normSq_mul,
    Complex.normSq_neg, Complex.normSq_I, one_mul, Complex.normSq_ofReal, sq]

lemma forwardProb_two_one_one :
    forwardProb 2 1 1 = Real.cos alphaAngle ^ 2 := by
  rw [forwardProb_eq_normSq, forwardState_two_one_one, Complex.normSq_ofReal, sq]

lemma backwardInit_two_A_zero :
    backwardInit 2 1 thetaA 0 = (Real.sin alphaAngle : ℂ) := by
  simp only [backwardInit, thetaA]
  rw [forwardProb_two_one_zero, Real.sqrt_sq sin_alpha_pos.le,
    Complex.ofReal_zero, mul_zero, Complex.exp_zero, mul_one]

lemma backwardInit_two_A_one :
    backwardInit 2 1 thetaA 1 = (Real.cos alphaAngle : ℂ) := by
  simp only [backwardInit, thetaA]
  rw [forwardProb_two_one_one, Real.sqrt_sq cos_alpha_pos.le,
    Complex.ofReal_zero, mul_zero, Complex.exp_zero, mul_one]

lemma thetaB_zero : thetaB 0 = 0 := rfl

lemma thetaB_one : thetaB 1 = 1 / 2 := rfl

lemma backwardInit_two_B_zero :
    backwardInit 2 1 thetaB 0 = (Real.sin alphaAngle : ℂ) := by
  simp only [backwardInit, thetaB_zero]
  rw [forwardProb_two_one_zero, Real.sqrt_sq sin_alpha_pos.le,
    Complex.ofReal_zero, mul_zero, Complex.exp_zero, mul_one]

lemma backwardInit_two_B_one :
    backwardInit 2 1 thetaB 1 =
      (Real.cos alphaAngle : ℂ) *
        ((Real.cos (1 / 2) : ℂ) + (Real.sin (1 / 2) : ℂ) * Complex.I) := by
  simp only [backwardInit, thetaB_one]
  rw [forwardProb_two_one_one, Real.sqrt_sq cos_alpha_pos.le, mul_comm Complex.I,
    exp_real_mul_I]

lemma bstateA_zero : backwardState 2 1 thetaA 1 0 =
    ((Real.cos alphaAngle * Real.sin alphaAngle : ℝ) : ℂ) +
      ((Real.cos alphaAngle * Real.sin alphaAngle : ℝ) : ℂ) * Complex.I := by
  have h : backwardState 2 1 thetaA 1 0 =
      ((Ubwd 2).mulVec (backwardInit 2 1 thetaA)) 0 := rfl
  rw [h, mulVec_two, backwardInit_two_A_zero, backwardInit_two_A_one,
    Ubwd_two_apply, Ubwd_two_apply]
  norm_num
  push_cast
  ring

lemma bstateA_one : backwardState 2 1 thetaA 1 1 =
    ((Real.cos alphaAngle ^ 2 : ℝ) : ℂ) +
      ((Real.sin alphaAngle ^ 2 : ℝ) : ℂ) * Complex.I := by
  have h : backwardState 2 1 thetaA 1 1 =
      ((Ubwd 2).mulVec (backwardInit 2 1 thetaA)) 1 := rfl
  rw [h, mulVec_two, backwardInit_two_A_zero, backwardInit_two_A_one,
    Ubwd_two_apply, Ubwd_two_apply]
  norm_num
  push_cast
  ring

lemma bstateB_zero : backwardState 2 1 thetaB 1 0 =
    ((Real.cos alphaAngle * Real.sin alphaAngle * (1 - Real.sin (1 / 2)) : ℝ) : ℂ) +
      ((Real.cos alphaAngle * Real.sin alphaAngle * Real.cos (1 / 2) : ℝ) : ℂ) *
        Complex.I := by
  have h : backwardState 2 1 thetaB 1 0 =
      ((Ubwd 2).mulVec (backwardInit 2 1 thetaB)) 0 := rfl
  rw [h, mulVec_two, backwardInit_two_B_zero, backwardInit_two_B_one,
    Ubwd_two_apply, Ubwd_two_apply]
  norm_num
  push_cast
  linear_combination (Complex.cos (alphaAngle : ℂ) * Complex.sin (alphaAngle : ℂ) *
    Complex.sin ((1 : ℂ) / 2)) * Complex.I_sq

/-- Backward row 1 entry 0 under the all-zero phase draw. -/
lemma bprobA : backwardProb 2 1 thetaA 1 0 =
    2 * (Real.cos alphaAngle * Real.sin alphaAngle) ^ 2 := by
  rw [backwardProb_eq_normSq, bstateA_zero, Complex.normSq_add_mul_I]
  ring

/-- Backward row 1 entry 0 under the phase draw `(0, 1/2)`. -/
lemma bprobB : backwardProb 2 1 thetaB 1 0 =
    (Real.cos alphaAngle * Real.sin alphaAngle) ^ 2 * (2 - 2 * Real.sin (1 / 2)) := by
  rw [backwardProb_eq_normSq, bstateB_zero, Complex.normSq_add_mul_I]
  linear_combination
    (Real.cos alphaAngle * Real.sin alphaAngle) ^ 2 * Real.sin_sq_add_cos_sq (1 / 2)

/-- C1 (counterexample): at `N = 2`, `timesteps = 1`, two valid phase draws
(all components in `[0,1)`) give different results: the backward probability
row after one inverse step differs at index 0, so two runs of
`compute_probability_evolution` do not return identical sequences even though
the function has no noise-amplitude input at all. -/
theorem run_results_depend_on_phase_draw :
    compute_probability_evolution 2 1 thetaA ≠ compute_probability_evolution 2 1 thetaB := by
  have hne : backwardProb 2 1 thetaA 1 (0 : Fin 2) ≠ backwardProb 2 1 thetaB 1 (0 : Fin 2) := by
    rw [bprobA, bprobB]
    have h1 := sin_alpha_pos
    have h2 := cos_alpha_pos
    have h3 := sin_half_pos
    have hX : 0 < (Real.cos alphaAngle * Real.sin alphaAngle) ^ 2 :=
      pow_pos (mul_pos h2 h1) 2
    intro h
    nlinarith [mul_pos hX h3]
  intro h
  rw [compute_probability_evolution, compute_probability_evolution] at h
  norm_num [backwardProbsList, List.range_succ, Prod.ext_iff] at h
  exact hne (congrFun h.2 0)

/-- Rotating by the unit-modulus phase factors leaves the renormalization in
`specPhaseRealign` trivial on a unit vector. -/
lemma specPhaseRealign_apply_unit {N : ℕ} (P : ℕ) (v : Fin N → ℂ)
    (hv : l2sq v = 1) (k : Fin N) :
    specPhaseRealign P v k =
      v k * Complex.exp (Complex.I * ((2 * Real.pi * k.val / P : ℝ) : ℂ)) := by
  rw [specPhaseRealign]
  have hr : l2sq (fun j : Fin N =>
      v j * Complex.exp (Complex.I * ((2 * Real.pi * j.val / P : ℝ) : ℂ))) = 1 := by
    rw [l2sq]
    calc ∑ j, Complex.normSq
          (v j * Complex.exp (Complex.I * ((2 * Real.pi * j.val / P : ℝ) : ℂ)))
        = ∑ j, Complex.normSq (v j) := by
          refine Finset.sum_congr rfl fun j _ => ?_
          rw [Complex.normSq_mul, normSq_exp_I_mul, mul_one]
      _ = 1 := hv
  rw [hr, Real.sqrt_one, Complex.ofReal_one, div_one]

/-- C3 (counterexample): the phase-realignment step the claim describes is
absent from the code.  At `N = 2`, `T = 1`, the all-zero phase draw and
`phasePrecision = 2`, the `PhaseRealignment` of the spec (rotation of component 1
by `exp(i·2π·1/2) = -1`, then renormalization) changes the reconstructed
state, while the backward step of the code is the bare inverse evolution — so
`backward[0] = PhaseRealignment(U⁻¹·backward[1])` fails on the code. -/
theorem phase_realignment_absent :
    specPhaseRealign 2 (backwardState 2 1 thetaA 1) ≠ backwardState 2 1 thetaA 1 := by
  intro h
  have h1 := congrFun h 1
  have hw1 : l2sq (backwardState 2 1 thetaA 1) = 1 :=
    l2sq_backwardState 2 1 (by norm_num) thetaA 1
  rw [specPhaseRealign_apply_unit 2 _ hw1 1] at h1
  have harg : ((2 * Real.pi * (((1 : Fin 2)).val : ℝ) / ((2 : ℕ) : ℝ) : ℝ)) = Real.pi := by
    norm_num
  rw [harg, mul_comm Complex.I, Complex.exp_pi_mul_I] at h1
  have h2 : (2 : ℂ) * backwardState 2 1 thetaA 1 1 = 0 := by
    linear_combination -h1
  have h3 : backwardState 2 1 thetaA 1 1 = 0 :=
    (mul_eq_zero.mp h2).resolve_left two_ne_zero
  rw [bstateA_one] at h3
  have h4 := congrArg Complex.re h3
  simp only [Complex.add_re, Complex.ofReal_re, Complex.mul_re, Complex.ofReal_im,
    Complex.I_re, Complex.I_im, Complex.zero_re, mul_zero, mul_one, zero_mul,
    sub_zero, zero_sub, add_zero, zero_add, neg_zero] at h4
  nlinarith [h4, pow_pos cos_alpha_pos 2]

end Pathways
